import Mathlib

/-!
Shallow embedding of `scripts/merge_uk_dictionaries.py`.

Strings are modelled as lists of Unicode code points (`List Nat`).
The Unicode primitives used by the script (`str.strip`, `str.lower`,
`str.replace`, the `\s` regex class, `str.isdigit`, and
`unicodedata.normalize("NFC", ·)`) are modelled over the character
repertoire this pipeline works with (ASCII, Latin-1 letters, Cyrillic,
the mojibake characters `â` `€` `™`, and combining marks): whitespace
and digit classes are the standard Unicode classes restricted to that
repertoire, lowercasing is the table for ASCII, Latin-1 and Cyrillic,
and NFC is the canonical-composition pass over the canonical pairs of
that repertoire (all inputs reaching it are free of the combining acute
accent, which the script removes beforehand).
-/

/-- Code point of the combining acute accent, `ACCENT = "́"` in the script. -/
def ACCENT : Nat := 0x301

/-- Unicode whitespace class: the characters matched by Python's `\s` regex
(and stripped by `str.strip`), restricted to the modelled repertoire. -/
def isSpace (c : Nat) : Bool :=
  decide (c = 0x9 ∨ c = 0xA ∨ c = 0xB ∨ c = 0xC ∨ c = 0xD ∨
    (0x1C ≤ c ∧ c ≤ 0x1F) ∨ c = 0x20 ∨ c = 0x85 ∨ c = 0xA0 ∨ c = 0x1680 ∨
    (0x2000 ≤ c ∧ c ≤ 0x200A) ∨ c = 0x2028 ∨ c = 0x2029 ∨ c = 0x202F ∨
    c = 0x205F ∨ c = 0x3000)

/-- Unicode decimal/digit class tested by Python's `str.isdigit`, restricted to
the modelled repertoire (ASCII digits, Latin-1 superscripts, Arabic-Indic digits). -/
def isDigit (c : Nat) : Bool :=
  decide ((0x30 ≤ c ∧ c ≤ 0x39) ∨ c = 0xB2 ∨ c = 0xB3 ∨ c = 0xB9 ∨
    (0x660 ≤ c ∧ c ≤ 0x669) ∨ (0x6F0 ≤ c ∧ c ≤ 0x6F9))

/-- Unicode lowercase mapping of one code point (Python `str.lower`), for the
ASCII, Latin-1 and Cyrillic blocks; identity elsewhere. -/
def pyLowerChar (c : Nat) : Nat :=
  if 0x41 ≤ c ∧ c ≤ 0x5A then c + 0x20
  else if 0xC0 ≤ c ∧ c ≤ 0xDE ∧ c ≠ 0xD7 then c + 0x20
  else if 0x410 ≤ c ∧ c ≤ 0x42F then c + 0x20
  else if 0x400 ≤ c ∧ c ≤ 0x40F then c + 0x50
  else if ((0x460 ≤ c ∧ c ≤ 0x481) ∨ (0x48A ≤ c ∧ c ≤ 0x52E)) ∧ c % 2 = 0 then c + 1
  else c

/-- Python `str.lower`, applied code point by code point. -/
def pyLower (s : List Nat) : List Nat := s.map pyLowerChar

/-- Python `str.strip`: drop whitespace from both ends. -/
def pyStrip (s : List Nat) : List Nat :=
  ((s.dropWhile isSpace).reverse.dropWhile isSpace).reverse

/-- Python `word.replace("â€™", "'")`: replace every occurrence of the
three-code-point mojibake sequence `â` (U+00E2), `€` (U+20AC), `™` (U+2122)
by the apostrophe U+0027, left to right. -/
def replaceApos : List Nat → List Nat
  | [] => []
  | [c] => [c]
  | [c, c2] => [c, c2]
  | c :: c2 :: c3 :: rest =>
    if c = 0xE2 ∧ c2 = 0x20AC ∧ c3 = 0x2122 then 0x27 :: replaceApos rest
    else c :: replaceApos (c2 :: c3 :: rest)

/-- Python `word.replace(ACCENT, "")`: remove every combining acute accent. -/
def remove0301 (s : List Nat) : List Nat := s.filter (fun c => c ≠ ACCENT)

/-- Canonical composition of a pair of code points, the table behind
`unicodedata.normalize("NFC", ·)` restricted to the modelled repertoire:
Cyrillic short-i / io / yi compositions and the Latin acute / circumflex
compositions. -/
def composePair (a b : Nat) : Option Nat :=
  if b = 0x306 then
    (if a = 0x438 then some 0x439 else if a = 0x418 then some 0x419 else none)
  else if b = 0x308 then
    (if a = 0x435 then some 0x451 else if a = 0x415 then some 0x401
     else if a = 0x456 then some 0x457 else if a = 0x406 then some 0x407 else none)
  else if b = 0x301 then
    (if a = 0x65 then some 0xE9 else if a = 0x61 then some 0xE1 else none)
  else if b = 0x302 then
    (if a = 0x61 then some 0xE2 else if a = 0x65 then some 0xEA else none)
  else none

/-- Composition pass of NFC: the current code point greedily absorbs the
following combining mark when the pair composes canonically. -/
def nfcAux (cur : Nat) : List Nat → List Nat
  | [] => [cur]
  | c :: rest =>
    match composePair cur c with
    | some d => nfcAux d rest
    | none => cur :: nfcAux c rest

/-- Model of `unicodedata.normalize("NFC", ·)` on the modelled repertoire. -/
def nfc : List Nat → List Nat
  | [] => []
  | c :: rest => nfcAux c rest

/-- Embedding of `normalize_word` (lines 16-21 of the script):
`word = raw.strip().lower().replace("â€™", "'")`; if empty return `""`;
else `unicodedata.normalize("NFC", word.replace(ACCENT, ""))`. -/
def normalize_word (raw : List Nat) : List Nat :=
  let word := replaceApos (pyLower (pyStrip raw))
  if word = [] then []
  else nfc (remove0301 word)

/-- Embedding of `is_cyrillic_char`: code point in `[0x0400, 0x052F]`. -/
def is_cyrillic_char (c : Nat) : Bool := decide (0x400 ≤ c ∧ c ≤ 0x52F)

/-- Allowed punctuation inside words, `{"'", "-"}` in the script. -/
def allowedPunct (c : Nat) : Bool := decide (c = 0x27 ∨ c = 0x2D)

/-- Embedding of the character loop of `is_valid_word`: `none` when a
character is neither allowed punctuation nor Cyrillic, otherwise the
number of Cyrillic letters. -/
def validLetters : List Nat → Option Nat
  | [] => some 0
  | c :: rest =>
    if allowedPunct c then validLetters rest
    else if is_cyrillic_char c then (validLetters rest).map (· + 1)
    else none

/-- Embedding of `is_valid_word` (lines 29-49): nonempty, no whitespace, no
digit, no control character, every character apostrophe, hyphen or Cyrillic,
and at least one Cyrillic letter. -/
def is_valid_word (word : List Nat) : Bool :=
  if word = [] then false
  else if word.any isSpace then false
  else if word.any isDigit then false
  else if word.any (fun c => decide (c < 32)) then false
  else
    match validLetters word with
    | none => false
    | some letters => decide (letters > 0)

/-- Per-file rejection tally built by `load_words`. -/
structure Stats where
  lines_total : Nat
  empty : Nat
  phrases : Nat
  invalid : Nat
  too_short : Nat
deriving Repr, DecidableEq

/-- Initial tally, all counters zero. -/
def Stats.init : Stats :=
  { lines_total := 0, empty := 0, phrases := 0, invalid := 0, too_short := 0 }

/-- Classification outcome of one input line. -/
inductive LineClass where
  | emptyC
  | phraseC
  | invalidC
  | tooShortC
  | acceptedC
deriving Repr, DecidableEq

/-- Classification of one line by the loop of `load_words`: first matching
rule wins, in the order empty, phrase (only with `filter_phrases`), invalid,
too short, accepted. -/
def classify (filter_phrases : Bool) (line : List Nat) : LineClass :=
  let normalized := normalize_word line
  if normalized = [] then .emptyC
  else if filter_phrases && normalized.any isSpace then .phraseC
  else if !(is_valid_word normalized) then .invalidC
  else if normalized.length ≤ 2 then .tooShortC
  else .acceptedC

/-- One iteration of the `load_words` loop (lines 62-82): bump `lines_total`,
normalize the line, then either bump the matching rejection counter or add the
word to the set. -/
def load_step (filter_phrases : Bool) (acc : Finset (List Nat) × Stats)
    (line : List Nat) : Finset (List Nat) × Stats :=
  let st := { acc.2 with lines_total := acc.2.lines_total + 1 }
  let normalized := normalize_word line
  if normalized = [] then (acc.1, { st with empty := st.empty + 1 })
  else if filter_phrases && normalized.any isSpace then
    (acc.1, { st with phrases := st.phrases + 1 })
  else if !(is_valid_word normalized) then
    (acc.1, { st with invalid := st.invalid + 1 })
  else if normalized.length ≤ 2 then
    (acc.1, { st with too_short := st.too_short + 1 })
  else (insert normalized acc.1, st)

/-- Embedding of `load_words` (lines 52-84): fold the loop over the lines of
the file, starting from the empty set and the zero tally. -/
def load_words (lines : List (List Nat)) (filter_phrases : Bool) :
    Finset (List Nat) × Stats :=
  lines.foldl (load_step filter_phrases) (∅, Stats.init)

/-- Lines of a file classified `accepted`, in order, after normalization. -/
def acceptedWords (filter_phrases : Bool) (lines : List (List Nat)) : List (List Nat) :=
  (lines.filter (fun l => classify filter_phrases l = .acceptedC)).map normalize_word

/-- Number of lines of a file classified `accepted`. -/
def acceptedCount (filter_phrases : Bool) (lines : List (List Nat)) : Nat :=
  (acceptedWords filter_phrases lines).length

/-- Number of lines of a file that fall in a given classification bucket. -/
def countClass (filter_phrases : Bool) (cl : LineClass) (lines : List (List Nat)) : Nat :=
  (lines.filter (fun l => decide (classify filter_phrases l = cl))).length

/-- The union computed by `main`: `merged = uk_ua_words | uk_full_words`. -/
def merged (A B : Finset (List Nat)) : Finset (List Nat) := A ∪ B

/-- The difference computed by `main`: `only_uk_ua = uk_ua_words - uk_full_words`. -/
def only_uk_ua (A B : Finset (List Nat)) : Finset (List Nat) := A \ B

/-- The difference computed by `main`: `only_uk_full = uk_full_words - uk_ua_words`. -/
def only_uk_full (A B : Finset (List Nat)) : Finset (List Nat) := B \ A

/-- The intersection computed by `main`: `intersection = uk_ua_words & uk_full_words`. -/
def intersection (A B : Finset (List Nat)) : Finset (List Nat) := A ∩ B

/-- Python `sorted(words)` on a set of strings: the elements in ascending
code-point lexicographic order. -/
def pySorted (words : Finset (List Nat)) : List (List Nat) :=
  words.sort (· ≤ ·)

/-- Embedding of `write_words` (lines 87-92) as the stream of code points
written to the file: for each word of `sorted(words)`, the word then a
newline. -/
def write_words (words : Finset (List Nat)) : List Nat :=
  (pySorted words).foldl (fun acc w => acc ++ w ++ [0xA]) []

/-- Outputs of the canonical-composition table. -/
def isCompOut (d : Nat) : Bool :=
  decide (d = 0x439 ∨ d = 0x419 ∨ d = 0x451 ∨ d = 0x401 ∨ d = 0x457 ∨ d = 0x407 ∨
    d = 0xE9 ∨ d = 0xE1 ∨ d = 0xE2 ∨ d = 0xEA)

/-- Normalization as the spec states it: the five-step composition
strip, lower, mojibake replacement, accent removal, NFC, with no
early return. -/
def normalize_word_steps (raw : List Nat) : List Nat :=
  nfc (remove0301 (replaceApos (pyLower (pyStrip raw))))

/-- C7: the implementation of `normalize_word`, early return included, is
equivalent to the spec's five-step composition. -/
theorem normalize_word_eq_steps (raw : List Nat) :
    normalize_word raw = normalize_word_steps raw := by
  by_cases h : replaceApos (pyLower (pyStrip raw)) = []
  · simp [normalize_word, normalize_word_steps, h, remove0301, nfc]
  · simp [normalize_word, normalize_word_steps, h]

/-- C8: `normalize_word` returns the empty string whenever the input is empty
after trimming; totality is by construction, the embedding being a total
function. -/
theorem normalize_word_of_strip_empty (raw : List Nat) (h : pyStrip raw = []) :
    normalize_word raw = [] := by
  simp [normalize_word, h, pyLower, replaceApos]

/-- Closed instance of `normalize_word_of_strip_empty` at a whitespace-only
input. -/
theorem normalize_word_of_strip_empty_witness :
    pyStrip [0x20, 0x9] = [] ∧ normalize_word [0x20, 0x9] = [] :=
  ⟨by decide, normalize_word_of_strip_empty [0x20, 0x9] (by decide)⟩

/-- C2: the four sets computed by `main` are the union, the two differences
and the intersection; the two differences are disjoint and the union obeys
inclusion-exclusion. -/
theorem merge_set_algebra (A B : Finset (List Nat)) :
    merged A B = A ∪ B ∧
    only_uk_ua A B = A \ B ∧
    only_uk_full A B = B \ A ∧
    intersection A B = A ∩ B ∧
    only_uk_ua A B ∩ only_uk_full A B = ∅ ∧
    (merged A B).card = A.card + B.card - (intersection A B).card := by
  refine ⟨rfl, rfl, rfl, rfl, ?_, ?_⟩
  · ext x
    simp only [only_uk_ua, only_uk_full, Finset.mem_inter, Finset.mem_sdiff,
      Finset.not_mem_empty, iff_false]
    tauto
  · have h := Finset.card_union_add_card_inter A B
    have h2 : (A ∩ B).card ≤ A.card := Finset.card_le_card Finset.inter_subset_left
    simp only [merged, intersection]
    omega

/-- C10: on the empty word set `write_words` writes nothing at all. -/
theorem write_words_empty : write_words (∅ : Finset (List Nat)) = [] := by
  simp [write_words, pySorted]

/-- When the character loop of `is_valid_word` succeeds, every character is
allowed punctuation or Cyrillic. -/
theorem validLetters_chars {w : List Nat} {n : Nat} (h : validLetters w = some n) :
    ∀ c ∈ w, allowedPunct c = true ∨ is_cyrillic_char c = true := by
  induction w generalizing n with
  | nil => intro c hc; cases hc
  | cons a rest ih =>
    intro c hc
    rcases List.mem_cons.mp hc with rfl | hc
    · by_cases hp : allowedPunct c = true
      · exact Or.inl hp
      · by_cases hcy : is_cyrillic_char c = true
        · exact Or.inr hcy
        · rw [validLetters, if_neg hp, if_neg hcy] at h
          cases h
    · by_cases hp : allowedPunct a = true
      · rw [validLetters, if_pos hp] at h
        exact ih h c hc
      · by_cases hcy : is_cyrillic_char a = true
        · rw [validLetters, if_neg hp, if_pos hcy] at h
          rcases Option.map_eq_some'.mp h with ⟨m, hm, _⟩
          exact ih hm c hc
        · rw [validLetters, if_neg hp, if_neg hcy] at h
          cases h

/-- When the character loop of `is_valid_word` counts a positive number of
letters, some character is Cyrillic. -/
theorem validLetters_pos {w : List Nat} {n : Nat} (h : validLetters w = some n)
    (hn : 0 < n) : ∃ c ∈ w, is_cyrillic_char c = true := by
  induction w generalizing n with
  | nil =>
    rw [validLetters] at h
    cases h
    exact absurd hn (by simp)
  | cons a rest ih =>
    by_cases hp : allowedPunct a = true
    · rw [validLetters, if_pos hp] at h
      rcases ih h hn with ⟨c, hc, hcy⟩
      exact ⟨c, List.mem_cons_of_mem a hc, hcy⟩
    · by_cases hcy : is_cyrillic_char a = true
      · exact ⟨a, List.mem_cons_self a rest, hcy⟩
      · rw [validLetters, if_neg hp, if_neg hcy] at h
        cases h

/-- Unfolding of a successful validity check into its five conditions. -/
theorem is_valid_word_spec {w : List Nat} (h : is_valid_word w = true) :
    w ≠ [] ∧ w.any isSpace = false ∧ w.any isDigit = false ∧
    (w.any fun c => decide (c < 32)) = false ∧
    ∃ n, validLetters w = some n ∧ 0 < n := by
  rw [is_valid_word] at h
  split_ifs at h with h1 h2 h3 h4
  rcases heq : validLetters w with _ | n
  · rw [heq] at h
    exact Bool.noConfusion h
  · rw [heq] at h
    exact ⟨h1, by simpa using h2, by simpa using h3, by simpa using h4,
      n, rfl, by simpa using h⟩

/-- Words in the accumulator of the `load_words` loop either were already
there or passed the validity and length checks. -/
theorem load_foldl_mem (fp : Bool) (lines : List (List Nat))
    (acc : Finset (List Nat) × Stats) (w : List Nat)
    (hw : w ∈ (lines.foldl (load_step fp) acc).1) :
    w ∈ acc.1 ∨ (is_valid_word w = true ∧ 2 < w.length) := by
  induction lines generalizing acc with
  | nil => exact Or.inl hw
  | cons l ls ih =>
    rw [List.foldl_cons] at hw
    rcases ih (load_step fp acc l) hw with hmem | hgood
    · simp only [load_step] at hmem
      split_ifs at hmem with h1 h2 h3 h4
      · exact Or.inl hmem
      · exact Or.inl hmem
      · exact Or.inl hmem
      · exact Or.inl hmem
      · rcases Finset.mem_insert.mp hmem with rfl | hmem
        · refine Or.inr ⟨by simpa using h3, by omega⟩
        · exact Or.inl hmem
    · exact Or.inr hgood

/-- C1: every word of the set returned by `load_words`, for any line sequence
and either flag, has length above two, no whitespace, no digit, no control
character, only apostrophes, hyphens and Cyrillic letters, and at least one
Cyrillic letter. -/
theorem load_words_accepted_invariant (lines : List (List Nat)) (fp : Bool)
    (w : List Nat) (hw : w ∈ (load_words lines fp).1) :
    2 < w.length ∧
    (∀ c ∈ w, isSpace c = false) ∧
    (∀ c ∈ w, isDigit c = false) ∧
    (∀ c ∈ w, 32 ≤ c) ∧
    (∀ c ∈ w, c = 0x27 ∨ c = 0x2D ∨ (0x400 ≤ c ∧ c ≤ 0x52F)) ∧
    (∃ c ∈ w, 0x400 ≤ c ∧ c ≤ 0x52F) := by
  rcases load_foldl_mem fp lines (∅, Stats.init) w hw with hmem | ⟨hv, hlen⟩
  · exact absurd hmem (Finset.not_mem_empty w)
  rcases is_valid_word_spec hv with ⟨-, hsp, hdg, hctl, n, hletters, hn⟩
  have hspc : ∀ c ∈ w, isSpace c = false := by
    intro c hc
    have := List.any_eq_false.mp hsp c hc
    simpa using this
  have hdgc : ∀ c ∈ w, isDigit c = false := by
    intro c hc
    have := List.any_eq_false.mp hdg c hc
    simpa using this
  have hctlc : ∀ c ∈ w, 32 ≤ c := by
    intro c hc
    have := List.any_eq_false.mp hctl c hc
    simp at this
    omega
  refine ⟨hlen, hspc, hdgc, hctlc, ?_, ?_⟩
  · intro c hc
    rcases validLetters_chars hletters c hc with h | h
    · rcases (by simpa [allowedPunct] using h : c = 0x27 ∨ c = 0x2D) with h | h
      · exact Or.inl h
      · exact Or.inr (Or.inl h)
    · exact Or.inr (Or.inr (by simpa [is_cyrillic_char] using h))
  · rcases validLetters_pos hletters hn with ⟨c, hc, hcy⟩
    exact ⟨c, hc, by simpa [is_cyrillic_char] using hcy⟩

/-- Closed instance of `load_words_accepted_invariant` on the one-line file
containing the word Привіт. -/
theorem load_words_accepted_invariant_witness :
    ([0x43F, 0x440, 0x438, 0x432, 0x456, 0x442] ∈
      (load_words [[0x41F, 0x440, 0x438, 0x432, 0x456, 0x442, 0xA]] false).1) ∧
    (2 < ([0x43F, 0x440, 0x438, 0x432, 0x456, 0x442] : List Nat).length ∧
    (∀ c ∈ ([0x43F, 0x440, 0x438, 0x432, 0x456, 0x442] : List Nat), isSpace c = false) ∧
    (∀ c ∈ ([0x43F, 0x440, 0x438, 0x432, 0x456, 0x442] : List Nat), isDigit c = false) ∧
    (∀ c ∈ ([0x43F, 0x440, 0x438, 0x432, 0x456, 0x442] : List Nat), 32 ≤ c) ∧
    (∀ c ∈ ([0x43F, 0x440, 0x438, 0x432, 0x456, 0x442] : List Nat),
      c = 0x27 ∨ c = 0x2D ∨ (0x400 ≤ c ∧ c ≤ 0x52F)) ∧
    (∃ c ∈ ([0x43F, 0x440, 0x438, 0x432, 0x456, 0x442] : List Nat),
      0x400 ≤ c ∧ c ≤ 0x52F)) :=
  ⟨by decide,
    load_words_accepted_invariant [[0x41F, 0x440, 0x438, 0x432, 0x456, 0x442, 0xA]]
      false [0x43F, 0x440, 0x438, 0x432, 0x456, 0x442] (by decide)⟩

/-- C5: a nonempty whitespace-containing candidate is tallied as a phrase
exactly when `filter_phrases` is set; with the flag off it is tallied as
invalid, never as a phrase and never accepted. -/
theorem whitespace_candidate_classification (line : List Nat)
    (h1 : normalize_word line ≠ [])
    (h2 : (normalize_word line).any isSpace = true) :
    classify true line = LineClass.phraseC ∧
    classify false line = LineClass.invalidC ∧
    (load_words [line] true).2.phrases = 1 ∧
    (load_words [line] true).2.invalid = 0 ∧
    (load_words [line] false).2.phrases = 0 ∧
    (load_words [line] false).2.invalid = 1 ∧
    (load_words [line] false).1 = ∅ := by
  have hv : is_valid_word (normalize_word line) = false := by
    rw [is_valid_word, if_neg h1, if_pos h2]
  refine ⟨?_, ?_, ?_, ?_, ?_, ?_, ?_⟩ <;>
    simp [classify, load_words, load_step, Stats.init, h1, h2, hv]

/-- Closed instance of `whitespace_candidate_classification` on the line
добрий день. -/
theorem whitespace_candidate_classification_witness :
    (normalize_word [0x434, 0x43E, 0x431, 0x440, 0x438, 0x439, 0x20,
      0x434, 0x435, 0x43D, 0x44C] ≠ []) ∧
    ((normalize_word [0x434, 0x43E, 0x431, 0x440, 0x438, 0x439, 0x20,
      0x434, 0x435, 0x43D, 0x44C]).any isSpace = true) ∧
    (classify true [0x434, 0x43E, 0x431, 0x440, 0x438, 0x439, 0x20,
      0x434, 0x435, 0x43D, 0x44C] = LineClass.phraseC ∧
    classify false [0x434, 0x43E, 0x431, 0x440, 0x438, 0x439, 0x20,
      0x434, 0x435, 0x43D, 0x44C] = LineClass.invalidC ∧
    (load_words [[0x434, 0x43E, 0x431, 0x440, 0x438, 0x439, 0x20,
      0x434, 0x435, 0x43D, 0x44C]] true).2.phrases = 1 ∧
    (load_words [[0x434, 0x43E, 0x431, 0x440, 0x438, 0x439, 0x20,
      0x434, 0x435, 0x43D, 0x44C]] true).2.invalid = 0 ∧
    (load_words [[0x434, 0x43E, 0x431, 0x440, 0x438, 0x439, 0x20,
      0x434, 0x435, 0x43D, 0x44C]] false).2.phrases = 0 ∧
    (load_words [[0x434, 0x43E, 0x431, 0x440, 0x438, 0x439, 0x20,
      0x434, 0x435, 0x43D, 0x44C]] false).2.invalid = 1 ∧
    (load_words [[0x434, 0x43E, 0x431, 0x440, 0x438, 0x439, 0x20,
      0x434, 0x435, 0x43D, 0x44C]] false).1 = ∅) :=
  ⟨by decide, by decide,
    whitespace_candidate_classification
      [0x434, 0x43E, 0x431, 0x440, 0x438, 0x439, 0x20, 0x434, 0x435, 0x43D, 0x44C]
      (by decide) (by decide)⟩

/-- The write loop, started from any already-written prefix, appends each word
followed by a newline. -/
theorem write_foldl_flatten (ws : List (List Nat)) (acc : List Nat) :
    ws.foldl (fun a w => a ++ w ++ [0xA]) acc =
      acc ++ (ws.map (fun w => w ++ [0xA])).flatten := by
  induction ws generalizing acc with
  | nil => simp
  | cons w rest ih =>
    rw [List.foldl_cons, ih]
    simp [List.append_assoc]

/-- C6: the stream written by `write_words` is the concatenation, in strictly
ascending code-point lexicographic order and without duplicates, of every word
of the set followed by a newline, the last line included. -/
theorem write_words_sorted_lines (words : Finset (List Nat)) :
    write_words words = ((pySorted words).map (fun w => w ++ [0xA])).flatten ∧
    List.Sorted (· < ·) (pySorted words) ∧
    (pySorted words).Nodup ∧
    (pySorted words).toFinset = words := by
  refine ⟨?_, ?_, ?_, ?_⟩
  · rw [write_words, write_foldl_flatten]
    rfl
  · exact Finset.sort_sorted_lt words
  · exact Finset.sort_nodup _ words
  · exact Finset.sort_toFinset _ words

/-- A line classified empty bumps only the empty counter. -/
theorem load_step_emptyC {fp : Bool} {l : List Nat} (acc : Finset (List Nat) × Stats)
    (h : classify fp l = LineClass.emptyC) :
    load_step fp acc l = (acc.1,
      { acc.2 with lines_total := acc.2.lines_total + 1, empty := acc.2.empty + 1 }) := by
  simp only [classify] at h
  split_ifs at h with h1 h2 h3 h4
  simp [load_step, h1]

/-- A line classified phrase bumps only the phrase counter. -/
theorem load_step_phraseC {fp : Bool} {l : List Nat} (acc : Finset (List Nat) × Stats)
    (h : classify fp l = LineClass.phraseC) :
    load_step fp acc l = (acc.1,
      { acc.2 with lines_total := acc.2.lines_total + 1, phrases := acc.2.phrases + 1 }) := by
  simp only [classify] at h
  split_ifs at h with h1 h2 h3 h4
  simp [load_step, h1, h2]

/-- A line classified invalid bumps only the invalid counter. -/
theorem load_step_invalidC {fp : Bool} {l : List Nat} (acc : Finset (List Nat) × Stats)
    (h : classify fp l = LineClass.invalidC) :
    load_step fp acc l = (acc.1,
      { acc.2 with lines_total := acc.2.lines_total + 1, invalid := acc.2.invalid + 1 }) := by
  simp only [classify] at h
  split_ifs at h with h1 h2 h3 h4
  simp [load_step, h1, h2, h3]

/-- A line classified too short bumps only the too-short counter. -/
theorem load_step_tooShortC {fp : Bool} {l : List Nat} (acc : Finset (List Nat) × Stats)
    (h : classify fp l = LineClass.tooShortC) :
    load_step fp acc l = (acc.1,
      { acc.2 with lines_total := acc.2.lines_total + 1, too_short := acc.2.too_short + 1 }) := by
  simp only [classify] at h
  split_ifs at h with h1 h2 h3 h4
  simp [load_step, h1, h2, h3, h4]

/-- An accepted line bumps no rejection counter and adds its normalization to
the set. -/
theorem load_step_acceptedC {fp : Bool} {l : List Nat} (acc : Finset (List Nat) × Stats)
    (h : classify fp l = LineClass.acceptedC) :
    load_step fp acc l = (insert (normalize_word l) acc.1,
      { acc.2 with lines_total := acc.2.lines_total + 1 }) := by
  simp only [classify] at h
  split_ifs at h with h1 h2 h3 h4
  simp [load_step, h1, h2, h3, h4]

/-- Per-bucket count of the first line plus the count over the rest. -/
theorem countClass_cons (fp : Bool) (cl : LineClass) (l : List Nat)
    (ls : List (List Nat)) :
    countClass fp cl (l :: ls) =
      (if classify fp l = cl then 1 else 0) + countClass fp cl ls := by
  by_cases h : classify fp l = cl <;>
    simp [countClass, List.filter_cons, h, Nat.add_comm]

/-- Accepted words of a file, first line split off. -/
theorem acceptedWords_cons (fp : Bool) (l : List Nat) (ls : List (List Nat)) :
    acceptedWords fp (l :: ls) =
      (if classify fp l = LineClass.acceptedC then [normalize_word l] else []) ++
        acceptedWords fp ls := by
  by_cases h : classify fp l = LineClass.acceptedC <;>
    simp [acceptedWords, List.filter_cons, h]

/-- Running the `load_words` loop from any accumulator adds the line count to
`lines_total`, the per-bucket counts to the rejection counters, and the
accepted normalized words to the set. -/
theorem load_foldl_stats (fp : Bool) (lines : List (List Nat))
    (acc : Finset (List Nat) × Stats) :
    ((lines.foldl (load_step fp) acc).2.lines_total = acc.2.lines_total + lines.length) ∧
    ((lines.foldl (load_step fp) acc).2.empty =
      acc.2.empty + countClass fp LineClass.emptyC lines) ∧
    ((lines.foldl (load_step fp) acc).2.phrases =
      acc.2.phrases + countClass fp LineClass.phraseC lines) ∧
    ((lines.foldl (load_step fp) acc).2.invalid =
      acc.2.invalid + countClass fp LineClass.invalidC lines) ∧
    ((lines.foldl (load_step fp) acc).2.too_short =
      acc.2.too_short + countClass fp LineClass.tooShortC lines) ∧
    ((lines.foldl (load_step fp) acc).1 = acc.1 ∪ (acceptedWords fp lines).toFinset) := by
  induction lines generalizing acc with
  | nil => simp [countClass, acceptedWords]
  | cons l ls ih =>
    rw [List.foldl_cons]
    rcases hcl : classify fp l
    · rw [load_step_emptyC acc hcl]
      obtain ⟨e1, e2, e3, e4, e5, e6⟩ := ih (acc.1,
        { acc.2 with lines_total := acc.2.lines_total + 1, empty := acc.2.empty + 1 })
      refine ⟨?_, ?_, ?_, ?_, ?_, ?_⟩ <;>
        simp_all [countClass_cons, acceptedWords_cons, hcl] <;> omega
    · rw [load_step_phraseC acc hcl]
      obtain ⟨e1, e2, e3, e4, e5, e6⟩ := ih (acc.1,
        { acc.2 with lines_total := acc.2.lines_total + 1, phrases := acc.2.phrases + 1 })
      refine ⟨?_, ?_, ?_, ?_, ?_, ?_⟩ <;>
        simp_all [countClass_cons, acceptedWords_cons, hcl] <;> omega
    · rw [load_step_invalidC acc hcl]
      obtain ⟨e1, e2, e3, e4, e5, e6⟩ := ih (acc.1,
        { acc.2 with lines_total := acc.2.lines_total + 1, invalid := acc.2.invalid + 1 })
      refine ⟨?_, ?_, ?_, ?_, ?_, ?_⟩ <;>
        simp_all [countClass_cons, acceptedWords_cons, hcl] <;> omega
    · rw [load_step_tooShortC acc hcl]
      obtain ⟨e1, e2, e3, e4, e5, e6⟩ := ih (acc.1,
        { acc.2 with lines_total := acc.2.lines_total + 1, too_short := acc.2.too_short + 1 })
      refine ⟨?_, ?_, ?_, ?_, ?_, ?_⟩ <;>
        simp_all [countClass_cons, acceptedWords_cons, hcl] <;> omega
    · rw [load_step_acceptedC acc hcl]
      obtain ⟨e1, e2, e3, e4, e5, e6⟩ := ih (insert (normalize_word l) acc.1,
        { acc.2 with lines_total := acc.2.lines_total + 1 })
      refine ⟨?_, ?_, ?_, ?_, ?_, ?_⟩
      · simp_all [countClass_cons, hcl]; omega
      · simp_all [countClass_cons, hcl]
      · simp_all [countClass_cons, hcl]
      · simp_all [countClass_cons, hcl]
      · simp_all [countClass_cons, hcl]
      · rw [e6, acceptedWords_cons, if_pos hcl]
        simp [Finset.insert_union]

/-- Each line falls in exactly one bucket, so the five counts sum to the
number of lines. -/
theorem countClass_partition (fp : Bool) (lines : List (List Nat)) :
    countClass fp LineClass.emptyC lines + countClass fp LineClass.phraseC lines +
    countClass fp LineClass.invalidC lines + countClass fp LineClass.tooShortC lines +
    countClass fp LineClass.acceptedC lines = lines.length := by
  induction lines with
  | nil => simp [countClass]
  | cons l ls ih =>
    rw [countClass_cons, countClass_cons, countClass_cons, countClass_cons, countClass_cons]
    rcases hcl : classify fp l <;> simp [hcl] <;> omega

/-- The accepted-line count is the accepted bucket of the partition. -/
theorem acceptedCount_eq_countClass (fp : Bool) (lines : List (List Nat)) :
    acceptedCount fp lines = countClass fp LineClass.acceptedC lines := by
  simp [acceptedCount, acceptedWords, countClass]

/-- C9: `lines_total` counts every input line, each line lands in exactly one
bucket so the rejection counters and the accepted-line count sum to
`lines_total`, and the returned set has at most one word per accepted line,
with a shortfall only when two accepted lines normalize to the same word. -/
theorem load_words_stats_partition (lines : List (List Nat)) (fp : Bool) :
    (load_words lines fp).2.lines_total = lines.length ∧
    (load_words lines fp).2.empty + (load_words lines fp).2.phrases +
      (load_words lines fp).2.invalid + (load_words lines fp).2.too_short +
      acceptedCount fp lines = lines.length ∧
    (load_words lines fp).1.card ≤ acceptedCount fp lines ∧
    (¬ (acceptedWords fp lines).Nodup ∨
      (load_words lines fp).1.card = acceptedCount fp lines) := by
  obtain ⟨e1, e2, e3, e4, e5, e6⟩ := load_foldl_stats fp lines (∅, Stats.init)
  rw [load_words] at *
  have hset : (lines.foldl (load_step fp) (∅, Stats.init)).1 =
      (acceptedWords fp lines).toFinset := by
    rw [e6]
    exact Finset.empty_union _
  have hcount := countClass_partition fp lines
  have hacc := acceptedCount_eq_countClass fp lines
  refine ⟨?_, ?_, ?_, ?_⟩
  · simpa [Stats.init] using e1
  · simp only [Stats.init] at e2 e3 e4 e5 ⊢
    simp at e2 e3 e4 e5
    rw [e2, e3, e4, e5, hacc]
    omega
  · rw [hset, hacc]
    rw [← hacc]
    exact (List.toFinset_card_le _).trans (by rw [acceptedCount])
  · by_cases hnd : (acceptedWords fp lines).Nodup
    · refine Or.inr ?_
      rw [hset, List.toFinset_card_of_nodup hnd, acceptedCount]
    · exact Or.inl hnd

/-- The image of the lowercase mapping avoids every uppercase range of its
table. -/
theorem pyLowerChar_no_upper (c : Nat) :
    ¬(0x41 ≤ pyLowerChar c ∧ pyLowerChar c ≤ 0x5A) ∧
    ¬(0xC0 ≤ pyLowerChar c ∧ pyLowerChar c ≤ 0xDE ∧ pyLowerChar c ≠ 0xD7) ∧
    ¬(0x410 ≤ pyLowerChar c ∧ pyLowerChar c ≤ 0x42F) ∧
    ¬(0x400 ≤ pyLowerChar c ∧ pyLowerChar c ≤ 0x40F) ∧
    ¬(((0x460 ≤ pyLowerChar c ∧ pyLowerChar c ≤ 0x481) ∨
       (0x48A ≤ pyLowerChar c ∧ pyLowerChar c ≤ 0x52E)) ∧ pyLowerChar c % 2 = 0) := by
  unfold pyLowerChar
  split_ifs <;> omega

/-- Lowercasing a code point twice is the same as lowercasing it once. -/
theorem pyLowerChar_idem (c : Nat) : pyLowerChar (pyLowerChar c) = pyLowerChar c := by
  obtain ⟨h1, h2, h3, h4, h5⟩ := pyLowerChar_no_upper c
  conv_lhs => rw [pyLowerChar]
  rw [if_neg h1, if_neg h2, if_neg h3, if_neg h4, if_neg h5]

/-- Lowercasing never turns a non-whitespace code point into whitespace. -/
theorem pyLowerChar_not_space {c : Nat} (h : isSpace c = false) :
    isSpace (pyLowerChar c) = false := by
  unfold isSpace at h ⊢
  rw [decide_eq_false_iff_not] at h ⊢
  unfold pyLowerChar
  split_ifs <;> omega

/-- Lowercasing never produces the combining acute accent. -/
theorem pyLowerChar_ne_accent {c : Nat} (h : c ≠ 0x301) : pyLowerChar c ≠ 0x301 := by
  unfold pyLowerChar
  split_ifs <;> omega

set_option maxHeartbeats 1000000 in
/-- Inversion of the canonical-composition table. -/
theorem composePair_inv {a b d : Nat} (h : composePair a b = some d) :
    (a = 0x438 ∧ b = 0x306 ∧ d = 0x439) ∨ (a = 0x418 ∧ b = 0x306 ∧ d = 0x419) ∨
    (a = 0x435 ∧ b = 0x308 ∧ d = 0x451) ∨ (a = 0x415 ∧ b = 0x308 ∧ d = 0x401) ∨
    (a = 0x456 ∧ b = 0x308 ∧ d = 0x457) ∨ (a = 0x406 ∧ b = 0x308 ∧ d = 0x407) ∨
    (a = 0x65 ∧ b = 0x301 ∧ d = 0xE9) ∨ (a = 0x61 ∧ b = 0x301 ∧ d = 0xE1) ∨
    (a = 0x61 ∧ b = 0x302 ∧ d = 0xE2) ∨ (a = 0x65 ∧ b = 0x302 ∧ d = 0xEA) := by
  unfold composePair at h
  split_ifs at h <;> cases h <;> subst_vars <;> simp

/-- Every composed code point is an output of the table. -/
theorem composePair_out {a b d : Nat} (h : composePair a b = some d) :
    isCompOut d = true := by
  rcases composePair_inv h with g | g | g | g | g | g | g | g | g | g <;>
    obtain ⟨-, -, rfl⟩ := g <;> decide

/-- Table outputs are starters: nothing composes with one on the right. -/
theorem compOut_no_second {d : Nat} (h : isCompOut d = true) (a : Nat) :
    composePair a d = none := by
  unfold isCompOut at h
  rw [decide_eq_true_iff] at h
  unfold composePair
  rcases h with rfl | rfl | rfl | rfl | rfl | rfl | rfl | rfl | rfl | rfl <;> simp

/-- Table outputs are letters, not whitespace. -/
theorem compOut_not_space {d : Nat} (h : isCompOut d = true) : isSpace d = false := by
  unfold isCompOut at h
  rw [decide_eq_true_iff] at h
  rcases h with rfl | rfl | rfl | rfl | rfl | rfl | rfl | rfl | rfl | rfl <;> decide

/-- Composition preserves lowercase-stability: when the left code point is
already lowercase, so is the composed output. -/
theorem composePair_closure_lower {a b d : Nat} (h : composePair a b = some d)
    (ha : pyLowerChar a = a) : pyLowerChar d = d := by
  rcases composePair_inv h with g | g | g | g | g | g | g | g | g | g <;>
    obtain ⟨rfl, -, rfl⟩ := g <;>
    first | decide | (exact absurd ha (by decide))

/-- Character-level closure through the composition pass: any property closed
under the table holds of every output character. -/
theorem nfcAux_mem {P : Nat → Prop}
    (hcl : ∀ a b d, composePair a b = some d → P a → P b → P d) :
    ∀ (l : List Nat) (cur : Nat), P cur → (∀ x ∈ l, P x) → ∀ x ∈ nfcAux cur l, P x := by
  intro l
  induction l with
  | nil =>
    intro cur hc _ x hx
    simp only [nfcAux, List.mem_singleton] at hx
    rwa [hx]
  | cons c rest ih =>
    intro cur hcur hl x hx
    rcases hcp : composePair cur c with _ | d <;> simp only [nfcAux, hcp] at hx
    · rcases List.mem_cons.mp hx with rfl | hx
      · exact hcur
      · exact ih c (hl c (by simp)) (fun y hy => hl y (by simp [hy])) x hx
    · exact ih d (hcl cur c d hcp hcur (hl c (by simp))) (fun y hy => hl y (by simp [hy])) x hx

/-- Same closure property for the full composition pass. -/
theorem nfc_mem {P : Nat → Prop}
    (hcl : ∀ a b d, composePair a b = some d → P a → P b → P d)
    (l : List Nat) (hl : ∀ x ∈ l, P x) : ∀ x ∈ nfc l, P x := by
  cases l with
  | nil => intro x hx; cases hx
  | cons c rest =>
    exact nfcAux_mem hcl rest c (hl c (by simp)) (fun y hy => hl y (by simp [hy]))

/-- The composition pass returns a nonempty list whose head is the current
code point or a table output. -/
theorem nfcAux_head : ∀ (l : List Nat) (cur : Nat),
    ∃ h t, nfcAux cur l = h :: t ∧ (h = cur ∨ isCompOut h = true) := by
  intro l
  induction l with
  | nil => intro cur; exact ⟨cur, [], rfl, Or.inl rfl⟩
  | cons c rest ih =>
    intro cur
    rcases hcp : composePair cur c with _ | d
    · exact ⟨cur, nfcAux c rest, by simp only [nfcAux, hcp], Or.inl rfl⟩
    · obtain ⟨h, t, heq, hh⟩ := ih d
      refine ⟨h, t, ?_, ?_⟩
      · simp only [nfcAux, hcp]
        exact heq
      · rcases hh with rfl | hh
        · exact Or.inr (composePair_out hcp)
        · exact Or.inr hh

/-- The last code point of the composition pass is the last input code point
or a table output. -/
theorem nfcAux_getLast : ∀ (l : List Nat) (cur : Nat),
    ∃ z, (nfcAux cur l).getLast? = some z ∧
      ((cur :: l).getLast? = some z ∨ isCompOut z = true) := by
  intro l
  induction l with
  | nil => intro cur; exact ⟨cur, by simp [nfcAux], Or.inl (by simp)⟩
  | cons c rest ih =>
    intro cur
    rcases hcp : composePair cur c with _ | d
    · obtain ⟨z, hz, hor⟩ := ih c
      obtain ⟨h, t, heq, -⟩ := nfcAux_head rest c
      refine ⟨z, ?_, ?_⟩
      · simp only [nfcAux, hcp]
        rw [heq] at hz ⊢
        rw [List.getLast?_cons_cons]
        exact hz
      · rcases hor with hlast | hout
        · left
          rw [List.getLast?_cons_cons]
          exact hlast
        · right
          exact hout
    · obtain ⟨z, hz, hor⟩ := ih d
      refine ⟨z, ?_, ?_⟩
      · simp only [nfcAux, hcp]
        exact hz
      · rcases hor with hlast | hout
        · cases rest with
          | nil =>
            right
            simp at hlast
            rw [← hlast]
            exact composePair_out hcp
          | cons r rs =>
            left
            rw [List.getLast?_cons_cons] at hlast ⊢
            rw [List.getLast?_cons_cons]
            exact hlast
        · right
          exact hout

/-- The output of the composition pass has no adjacent composable pair. -/
theorem nfcAux_chain : ∀ (l : List Nat) (cur : Nat),
    List.Chain' (fun a b => composePair a b = none) (nfcAux cur l) := by
  intro l
  induction l with
  | nil => intro cur; simp [nfcAux]
  | cons c rest ih =>
    intro cur
    rcases hcp : composePair cur c with _ | d
    · obtain ⟨h, t, heq, hh⟩ := nfcAux_head rest c
      simp only [nfcAux, hcp]
      rw [heq]
      refine List.chain'_cons.mpr ⟨?_, heq ▸ ih c⟩
      rcases hh with rfl | hout
      · exact hcp
      · exact compOut_no_second hout cur
    · simp only [nfcAux, hcp]
      exact ih d

/-- On a list with no adjacent composable pair the composition pass is the
identity. -/
theorem nfcAux_fixed : ∀ (l : List Nat) (cur : Nat),
    List.Chain' (fun a b => composePair a b = none) (cur :: l) →
    nfcAux cur l = cur :: l := by
  intro l
  induction l with
  | nil => intro cur _; rfl
  | cons c rest ih =>
    intro cur hch
    obtain ⟨h1, h2⟩ := List.chain'_cons.mp hch
    simp only [nfcAux, h1]
    rw [ih c h2]

/-- The composition pass is idempotent. -/
theorem nfc_idem (l : List Nat) : nfc (nfc l) = nfc l := by
  cases l with
  | nil => rfl
  | cons c rest =>
    have hch := nfcAux_chain rest c
    obtain ⟨h, t, heq, -⟩ := nfcAux_head rest c
    show nfc (nfcAux c rest) = nfcAux c rest
    rw [heq] at hch ⊢
    show nfcAux h t = h :: t
    exact nfcAux_fixed t h hch

/-- Replacement of the mojibake sequence never empties a nonempty string. -/
theorem replaceApos_ne_nil : ∀ {v : List Nat}, v ≠ [] → replaceApos v ≠ [] := by
  intro v
  induction v using replaceApos.induct with
  | case1 => intro h; exact absurd rfl h
  | case2 c => intro _; simp [replaceApos]
  | case3 c c2 => intro _; simp [replaceApos]
  | case4 c c2 c3 rest hcond ih =>
    intro _
    rw [replaceApos, if_pos hcond]
    simp
  | case5 c c2 c3 rest hcond ih =>
    intro _
    rw [replaceApos, if_neg hcond]
    simp

/-- Every character of the replaced string is a character of the original or
the apostrophe. -/
theorem replaceApos_mem : ∀ (v : List Nat), ∀ x ∈ replaceApos v, x ∈ v ∨ x = 0x27 := by
  intro v
  induction v using replaceApos.induct with
  | case1 => intro x hx; cases hx
  | case2 c =>
    intro x hx
    simp only [replaceApos] at hx
    exact Or.inl hx
  | case3 c c2 =>
    intro x hx
    simp only [replaceApos] at hx
    exact Or.inl hx
  | case4 c c2 c3 rest hcond ih =>
    intro x hx
    rw [replaceApos, if_pos hcond] at hx
    rcases List.mem_cons.mp hx with rfl | hx
    · exact Or.inr rfl
    · rcases ih x hx with h | h
      · exact Or.inl (by simp [h])
      · exact Or.inr h
  | case5 c c2 c3 rest hcond ih =>
    intro x hx
    rw [replaceApos, if_neg hcond] at hx
    rcases List.mem_cons.mp hx with rfl | hx
    · exact Or.inl (by simp)
    · rcases ih x hx with h | h
      · refine Or.inl ?_
        simp only [List.mem_cons] at h ⊢
        tauto
      · exact Or.inr h

/-- The head of the replaced string is the original head or the apostrophe. -/
theorem replaceApos_head : ∀ (v : List Nat), ∀ x ∈ (replaceApos v).head?,
    some x = v.head? ∨ x = 0x27 := by
  intro v
  induction v using replaceApos.induct with
  | case1 => intro x hx; cases hx
  | case2 c => intro x hx; simp only [replaceApos] at hx; simp_all
  | case3 c c2 => intro x hx; simp only [replaceApos] at hx; simp_all
  | case4 c c2 c3 rest hcond ih =>
    intro x hx
    rw [replaceApos, if_pos hcond] at hx
    simp at hx
    exact Or.inr hx.symm
  | case5 c c2 c3 rest hcond ih =>
    intro x hx
    rw [replaceApos, if_neg hcond] at hx
    simp at hx
    simp [hx]

/-- The last character of the replaced string is the original last character
or the apostrophe. -/
theorem replaceApos_getLast : ∀ (v : List Nat), v ≠ [] →
    ∃ z, (replaceApos v).getLast? = some z ∧ (v.getLast? = some z ∨ z = 0x27) := by
  intro v
  induction v using replaceApos.induct with
  | case1 => intro h; exact absurd rfl h
  | case2 c => intro _; exact ⟨c, by simp [replaceApos], Or.inl (by simp)⟩
  | case3 c c2 => intro _; exact ⟨c2, by simp [replaceApos], Or.inl (by simp)⟩
  | case4 c c2 c3 rest hcond ih =>
    intro _
    by_cases hr : rest = []
    · subst hr
      exact ⟨0x27, by rw [replaceApos, if_pos hcond]; simp [replaceApos], Or.inr rfl⟩
    · obtain ⟨z, hz, hor⟩ := ih hr
      refine ⟨z, ?_, ?_⟩
      · rw [replaceApos, if_pos hcond]
        cases hrep : replaceApos rest with
        | nil => exact absurd hrep (replaceApos_ne_nil hr)
        | cons r rs =>
          rw [List.getLast?_cons_cons, ← hrep]
          exact hz
      · rcases hor with h | h
        · left
          cases rest with
          | nil => exact absurd rfl hr
          | cons r rs =>
            rw [List.getLast?_cons_cons, List.getLast?_cons_cons, List.getLast?_cons_cons]
            exact h
        · exact Or.inr h
  | case5 c c2 c3 rest hcond ih =>
    intro _
    obtain ⟨z, hz, hor⟩ := ih (by simp)
    refine ⟨z, ?_, ?_⟩
    · rw [replaceApos, if_neg hcond]
      cases hrep : replaceApos (c2 :: c3 :: rest) with
      | nil => exact absurd hrep (replaceApos_ne_nil (by simp))
      | cons r rs =>
        rw [List.getLast?_cons_cons, ← hrep]
        exact hz
    · rcases hor with h | h
      · left
        rw [List.getLast?_cons_cons]
        exact h
      · exact Or.inr h

/-- The head surviving `dropWhile` fails the predicate. -/
theorem head_dropWhile (p : Nat → Bool) : ∀ (l : List Nat),
    ∀ x ∈ (l.dropWhile p).head?, p x = false := by
  intro l
  induction l with
  | nil => intro x hx; cases hx
  | cons a t ih =>
    intro x hx
    by_cases hp : p a = true
    · rw [List.dropWhile_cons, if_pos hp] at hx
      exact ih x hx
    · rw [List.dropWhile_cons, if_neg hp] at hx
      simp at hx
      rw [← hx]
      simpa using hp

/-- When `dropWhile` leaves something, the last element is unchanged. -/
theorem getLast_dropWhile (p : Nat → Bool) : ∀ (l : List Nat),
    l.dropWhile p ≠ [] → (l.dropWhile p).getLast? = l.getLast? := by
  intro l
  induction l with
  | nil => intro h; exact absurd rfl h
  | cons a t ih =>
    intro h
    by_cases hp : p a = true
    · rw [List.dropWhile_cons, if_pos hp] at h ⊢
      rw [ih h]
      cases t with
      | nil =>
        rw [List.dropWhile_nil] at h
        exact absurd rfl h
      | cons b u => rw [List.getLast?_cons_cons]
    · rw [List.dropWhile_cons, if_neg hp]

/-- A list whose head fails the predicate is unchanged by `dropWhile`. -/
theorem dropWhile_eq_self_of_head (p : Nat → Bool) (l : List Nat)
    (h : ∀ x ∈ l.head?, p x = false) : l.dropWhile p = l := by
  cases l with
  | nil => rfl
  | cons a t =>
    rw [List.dropWhile_cons, if_neg]
    simp at h
    simp [h]

/-- The head of the stripped string is not whitespace. -/
theorem pyStrip_head (s : List Nat) : ∀ x ∈ (pyStrip s).head?, isSpace x = false := by
  intro x hx
  unfold pyStrip at hx
  by_cases hd : (s.dropWhile isSpace).reverse.dropWhile isSpace = []
  · rw [hd] at hx
    cases hx
  · rw [List.head?_reverse, getLast_dropWhile isSpace _ hd, List.getLast?_reverse] at hx
    exact head_dropWhile isSpace s x hx

/-- The last character of the stripped string is not whitespace. -/
theorem pyStrip_getLast (s : List Nat) :
    ∀ x ∈ (pyStrip s).getLast?, isSpace x = false := by
  intro x hx
  unfold pyStrip at hx
  rw [List.getLast?_reverse] at hx
  exact head_dropWhile isSpace _ x hx

/-- A string with non-whitespace ends is unchanged by stripping. -/
theorem pyStrip_eq_self {t : List Nat}
    (h1 : ∀ x ∈ t.head?, isSpace x = false)
    (h2 : ∀ x ∈ t.getLast?, isSpace x = false) : pyStrip t = t := by
  unfold pyStrip
  rw [dropWhile_eq_self_of_head isSpace t h1]
  rw [dropWhile_eq_self_of_head isSpace t.reverse (by rwa [List.head?_reverse])]
  exact List.reverse_reverse t

/-- Stripping only removes characters. -/
theorem pyStrip_subset {s : List Nat} : ∀ x ∈ pyStrip s, x ∈ s := by
  intro x hx
  unfold pyStrip at hx
  rw [List.mem_reverse] at hx
  have h1 := (List.dropWhile_sublist (l := (s.dropWhile isSpace).reverse) isSpace).mem hx
  rw [List.mem_reverse] at h1
  exact (List.dropWhile_sublist isSpace).mem h1

/-- The head of the pre-NFC intermediate string is not whitespace. -/
theorem intermediate_head_not_space (s : List Nat) :
    ∀ x ∈ (replaceApos (pyLower (pyStrip s))).head?, isSpace x = false := by
  intro x hx
  rcases replaceApos_head _ x hx with h | h
  · unfold pyLower at h
    rw [List.head?_map] at h
    cases hh : (pyStrip s).head? with
    | none => rw [hh] at h; cases h
    | some y =>
      rw [hh] at h
      simp at h
      rw [h]
      exact pyLowerChar_not_space (pyStrip_head s y (by rw [hh]; rfl))
  · rw [h]
    decide

/-- The last character of the pre-NFC intermediate string is not whitespace. -/
theorem intermediate_getLast_not_space (s : List Nat)
    (h0 : replaceApos (pyLower (pyStrip s)) ≠ []) :
    ∀ x ∈ (replaceApos (pyLower (pyStrip s))).getLast?, isSpace x = false := by
  intro x hx
  have hvne : pyLower (pyStrip s) ≠ [] := by
    intro hcon
    rw [hcon] at h0
    exact h0 rfl
  obtain ⟨z, hz, hor⟩ := replaceApos_getLast (pyLower (pyStrip s)) hvne
  rw [hz] at hx
  simp at hx
  subst hx
  rcases hor with h | h
  · unfold pyLower at h
    rw [List.getLast?_map] at h
    cases hh : (pyStrip s).getLast? with
    | none => rw [hh] at h; cases h
    | some y =>
      rw [hh] at h
      simp at h
      rw [← h]
      exact pyLowerChar_not_space (pyStrip_getLast s y (by rw [hh]; rfl))
  · rw [h]
    decide

/-- C4 (amended): for every input containing no combining acute accent, the
output of `normalize_word` carries no leading or trailing whitespace. -/
theorem normalize_word_trimmed (s : List Nat) (hacc : ∀ c ∈ s, c ≠ 0x301) :
    pyStrip (normalize_word s) = normalize_word s := by
  by_cases h0 : replaceApos (pyLower (pyStrip s)) = []
  · have hz : normalize_word s = [] := by simp [normalize_word, h0]
    rw [hz]
    rfl
  · have hne : normalize_word s =
        nfc (remove0301 (replaceApos (pyLower (pyStrip s)))) := by
      simp [normalize_word, h0]
    have hnacc : ∀ x ∈ replaceApos (pyLower (pyStrip s)), x ≠ 0x301 := by
      intro x hx
      rcases replaceApos_mem _ x hx with h | h
      · unfold pyLower at h
        rcases List.mem_map.mp h with ⟨y, hy, rfl⟩
        exact pyLowerChar_ne_accent (hacc y (pyStrip_subset y hy))
      · rw [h]
        decide
    have hrm : remove0301 (replaceApos (pyLower (pyStrip s))) =
        replaceApos (pyLower (pyStrip s)) := by
      unfold remove0301
      apply List.filter_eq_self.mpr
      intro a ha
      simpa [ACCENT] using hnacc a ha
    rw [hne, hrm]
    rcases hu : replaceApos (pyLower (pyStrip s)) with _ | ⟨c, rest⟩
    · exact absurd hu h0
    · apply pyStrip_eq_self
      · intro x hx
        obtain ⟨h, t, heq, hh⟩ := nfcAux_head rest c
        rw [show nfc (c :: rest) = nfcAux c rest from rfl, heq] at hx
        simp at hx
        rw [← hx]
        rcases hh with hh | hout
        · rw [hh]
          have hhead := intermediate_head_not_space s
          rw [hu] at hhead
          exact hhead c rfl
        · exact compOut_not_space hout
      · intro x hx
        obtain ⟨z, hz, hor⟩ := nfcAux_getLast rest c
        rw [show nfc (c :: rest) = nfcAux c rest from rfl, hz] at hx
        simp at hx
        rw [← hx]
        rcases hor with h | hout
        · have hlast := intermediate_getLast_not_space s h0
          rw [hu] at hlast
          exact hlast z (by rw [h]; rfl)
        · exact compOut_not_space hout

/-- Closed instance of `normalize_word_trimmed` on a padded input line. -/
theorem normalize_word_trimmed_witness :
    (∀ c ∈ ([0x20, 0x41F, 0x440, 0x438, 0x432, 0x456, 0x442, 0x20] : List Nat),
      c ≠ 0x301) ∧
    pyStrip (normalize_word [0x20, 0x41F, 0x440, 0x438, 0x432, 0x456, 0x442, 0x20]) =
      normalize_word [0x20, 0x41F, 0x440, 0x438, 0x432, 0x456, 0x442, 0x20] :=
  ⟨by decide,
    normalize_word_trimmed [0x20, 0x41F, 0x440, 0x438, 0x432, 0x456, 0x442, 0x20]
      (by decide)⟩

/-- C4 (counterexample): on the input a, space, combining acute accent, the
accent removal exposes a trailing space, so the output of `normalize_word` is
not whitespace-trimmed. -/
theorem normalize_word_not_trimmed :
    pyStrip (normalize_word [0x61, 0x20, 0x301]) ≠ normalize_word [0x61, 0x20, 0x301] := by
  decide

/-- Unfolded form of `normalize_word`. -/
theorem normalize_word_eq (t : List Nat) :
    normalize_word t =
      if replaceApos (pyLower (pyStrip t)) = [] then []
      else nfc (remove0301 (replaceApos (pyLower (pyStrip t)))) := rfl

/-- Every character of a normalized word is fixed by lowercasing. -/
theorem normalize_word_chars_lower (s : List Nat) :
    ∀ x ∈ normalize_word s, pyLowerChar x = x := by
  by_cases h0 : replaceApos (pyLower (pyStrip s)) = []
  · simp [normalize_word, h0]
  · have hne : normalize_word s =
        nfc (remove0301 (replaceApos (pyLower (pyStrip s)))) := by
      simp [normalize_word, h0]
    rw [hne]
    apply nfc_mem
    · intro a b d hc ha _
      exact composePair_closure_lower hc ha
    · intro x hx
      have hx2 : x ∈ replaceApos (pyLower (pyStrip s)) := by
        unfold remove0301 at hx
        exact List.mem_of_mem_filter hx
      rcases replaceApos_mem _ x hx2 with h | h
      · unfold pyLower at h
        rcases List.mem_map.mp h with ⟨y, hy, rfl⟩
        exact pyLowerChar_idem y
      · rw [h]
        decide

/-- A normalized word contains no combining acute accent. -/
theorem normalize_word_no_accent (s : List Nat) :
    ∀ x ∈ normalize_word s, x ≠ 0x301 := by
  by_cases h0 : replaceApos (pyLower (pyStrip s)) = []
  · simp [normalize_word, h0]
  · have hne : normalize_word s =
        nfc (remove0301 (replaceApos (pyLower (pyStrip s)))) := by
      simp [normalize_word, h0]
    rw [hne]
    apply nfc_mem
    · intro a b d hc _ _
      rcases composePair_inv hc with g | g | g | g | g | g | g | g | g | g <;>
        obtain ⟨-, -, rfl⟩ := g <;> decide
    · intro x hx
      unfold remove0301 at hx
      have := List.of_mem_filter hx
      simpa [ACCENT] using this

/-- A normalized word is a fixed point of the composition pass. -/
theorem normalize_word_nfc_fixed (s : List Nat) :
    nfc (normalize_word s) = normalize_word s := by
  by_cases h0 : replaceApos (pyLower (pyStrip s)) = []
  · simp [normalize_word, h0]
    rfl
  · have hne : normalize_word s =
        nfc (remove0301 (replaceApos (pyLower (pyStrip s)))) := by
      simp [normalize_word, h0]
    rw [hne]
    exact nfc_idem _

/-- C3 (amended): `normalize_word` is idempotent on every input whose
normalization carries no leading or trailing whitespace and contains no
occurrence of the mojibake sequence. -/
theorem normalize_word_idem (s : List Nat)
    (h1 : pyStrip (normalize_word s) = normalize_word s)
    (h2 : replaceApos (normalize_word s) = normalize_word s) :
    normalize_word (normalize_word s) = normalize_word s := by
  by_cases ht : normalize_word s = []
  · rw [ht]
    rfl
  · have hlow : pyLower (normalize_word s) = normalize_word s := by
      unfold pyLower
      exact (List.map_congr_left (normalize_word_chars_lower s)).trans
        (List.map_id _)
    have hrm : remove0301 (normalize_word s) = normalize_word s := by
      unfold remove0301
      apply List.filter_eq_self.mpr
      intro a ha
      simpa [ACCENT] using normalize_word_no_accent s a ha
    have hword : replaceApos (pyLower (pyStrip (normalize_word s))) =
        normalize_word s := by
      rw [h1, hlow, h2]
    conv_lhs => rw [normalize_word_eq]
    rw [hword, if_neg ht, hrm]
    exact normalize_word_nfc_fixed s

/-- Closed instance of `normalize_word_idem` on the line Привіт. -/
theorem normalize_word_idem_witness :
    (pyStrip (normalize_word [0x41F, 0x440, 0x438, 0x432, 0x456, 0x442]) =
      normalize_word [0x41F, 0x440, 0x438, 0x432, 0x456, 0x442]) ∧
    (replaceApos (normalize_word [0x41F, 0x440, 0x438, 0x432, 0x456, 0x442]) =
      normalize_word [0x41F, 0x440, 0x438, 0x432, 0x456, 0x442]) ∧
    normalize_word (normalize_word [0x41F, 0x440, 0x438, 0x432, 0x456, 0x442]) =
      normalize_word [0x41F, 0x440, 0x438, 0x432, 0x456, 0x442] :=
  ⟨by decide, by decide,
    normalize_word_idem [0x41F, 0x440, 0x438, 0x432, 0x456, 0x442]
      (by decide) (by decide)⟩

/-- C3 (counterexample): on the input â, €, combining acute accent, ™ the
accent removal creates a fresh mojibake sequence after the replacement step
already ran, so a second normalization changes the word again. -/
theorem normalize_word_not_idempotent :
    normalize_word (normalize_word [0xE2, 0x20AC, 0x301, 0x2122]) ≠
      normalize_word [0xE2, 0x20AC, 0x301, 0x2122] := by
  decide
